import Mathlib

/-!
Shallow embedding of the performance-metrics core of `optic/metrics.py`
(OptiCommPy): hard-decision demodulation, LLR computation, BER/SER/SNR
estimation, and the Monte Carlo GMI/MI estimators.

Conventions of the embedding:
* complex symbol arrays become `List ℂ`; a multi-mode 2-D array (rows =
  time, columns = modes), after the shape canonicalization the code
  performs, is represented mode-major as `List (List ℂ)` (one inner list
  per column / mode);
* bits (the 0.0 / 1.0 entries of `bitMap` and of decided-bit arrays)
  become `Bool`;
* `np.argmin(np.abs(..))` is embedded by `argminIdx` applied to the list
  of distances: numpy returns the first (lowest) index attaining the
  minimum, which is what `argminIdx` computes;
* machine floats are modelled by exact reals; the one place where the
  IEEE values `±inf`/`nan` are semantically relevant (the LLR clipping
  lines 240-241 of metrics.py) is additionally modelled on the inductive
  type `FloatVal` of float values.
-/

namespace OpticMetrics

/-- Mean of a list of reals, `np.mean` on a real array
(empty input: numpy yields NaN; here `0/0 = 0`). -/
noncomputable def npmean (xs : List ℝ) : ℝ := xs.sum / xs.length

/-- Mean of a list of complex numbers, `np.mean` on a complex array. -/
noncomputable def cmean (xs : List ℂ) : ℂ := xs.sum / (xs.length : ℂ)

/-- metrics.py line 25, `signal_power`: `np.mean(x * np.conj(x)).real`. -/
noncomputable def signal_power (x : List ℂ) : ℝ :=
  (cmean (x.map fun z => z * (starRingEnd ℂ) z)).re

/-- Variance of a complex array, `np.var(x)`: numpy computes
`np.mean(np.abs(x - np.mean(x)) ** 2)`. -/
noncomputable def npvar (xs : List ℂ) : ℝ :=
  npmean (xs.map fun z => Complex.abs (z - cmean xs) ^ 2)

/-- Modelled from the spec: `pnorm` lives in `optic/dsp.py`, which is not
part of the sources here; §4.1 (Signal Conditioner) specifies it as
rescaling to unit average power by dividing by the square root of the mean
squared magnitude, which also matches the inline comment
`# / np.sqrt(signal_power(rx[:, k]))` at every `pnorm` call site in
metrics.py. -/
noncomputable def pnorm (x : List ℂ) : List ℂ :=
  x.map fun z => z / ((Real.sqrt (signal_power x) : ℝ) : ℂ)

/-- First (lowest) index of a minimal element, `np.argmin` on a real
array.  On the empty list (numpy raises) we return `0`. -/
noncomputable def argminIdx : List ℝ → ℕ
  | [] => 0
  | [_] => 0
  | d :: rest =>
      let j := argminIdx rest
      if rest.getD j 0 < d then j + 1 else 0

/-- metrics.py line 54: `np.argmin(np.abs(rxSymb[i] - constSymb))`. -/
noncomputable def nearestIdx (r : ℂ) (constSymb : List ℂ) : ℕ :=
  argminIdx (constSymb.map fun c => Complex.abs (r - c))

/-- metrics.py lines 48-56, `hardDecision`: the decided-bit buffer is
filled with `bitMap[indSymb, :]` at positions `[i*b, i*b + b)` for symbol
`i`, i.e. it is the concatenation of the bit-map rows selected by the
nearest constellation index of each received symbol. -/
noncomputable def hardDecision (rxSymb constSymb : List ℂ)
    (bitMap : List (List Bool)) : List Bool :=
  rxSymb.flatMap fun r => bitMap.getD (nearestIdx r constSymb) []

/-- Column `indBit` of the bit map, `bitMap[:, indBit]`. -/
def colBit (bitMap : List (List Bool)) (indBit : ℕ) : List Bool :=
  bitMap.map fun row => row.getD indBit false

/-- Boolean-masked sum, `np.sum(prob[mask == v])`. -/
noncomputable def maskedSum (prob : List ℝ) (mask : List Bool) (v : Bool) : ℝ :=
  (((prob.zip mask).filter fun p => p.2 == v).map Prod.fst).sum

/-- metrics.py lines 134-169, `calcLLR`: for each received symbol the
likelihood vector `prob = np.exp((-np.abs(rxSymb[i] - constSymb) ** 2) / σ2)`
is formed (`|z|^2` is `Complex.abs z ^ 2`), and for each bit position the
output entry `i*b + indBit` is `np.log(p0) - np.log(p1)` with `p0`/`p1`
the likelihood mass of the constellation points whose bit `indBit` is
0 / 1.  `b = int(np.log2(M))` with `M = len(constSymb)`. -/
noncomputable def calcLLR (rxSymb : List ℂ) (σ2 : ℝ) (constSymb : List ℂ)
    (bitMap : List (List Bool)) : List ℝ :=
  rxSymb.flatMap fun r =>
    (List.range (Nat.log2 constSymb.length)).map fun indBit =>
      Real.log (maskedSum (constSymb.map fun c =>
          Real.exp (-Complex.abs (r - c) ^ 2 / σ2)) (colBit bitMap indBit) false) -
        Real.log (maskedSum (constSymb.map fun c =>
          Real.exp (-Complex.abs (r - c) ^ 2 / σ2)) (colBit bitMap indBit) true)

/-- An IEEE-754 double as far as the LLR clipping step can distinguish
values: a finite real, one of the two infinities, or NaN. -/
inductive FloatVal where
  | fin (x : ℝ)
  | pinf
  | ninf
  | nan

/-- metrics.py lines 240-241, on float values:
`LLRs[LLRs == np.inf] = 500` and `LLRs[LLRs == -np.inf] = -500`.
The IEEE comparison `x == inf` holds exactly for the value `+inf`
(NaN compares unequal to everything, finite values are not `inf`),
so an entry is rewritten iff it is one of the two infinities. -/
def clipStep : FloatVal → FloatVal
  | .pinf => .fin 500
  | .ninf => .fin (-500)
  | v => v

/-- The clipping step applied entrywise to an LLR array. -/
def clipLLRs (l : List FloatVal) : List FloatVal := l.map clipStep

/-- Strided slice `l[n::b]` of numpy: elements at indices
`n, n + b, n + 2*b, ...`. -/
def sliceStride {α : Type} (l : List α) (n b : ℕ) (d : α) : List α :=
  (List.range ((l.length - n + (b - 1)) / b)).map fun i => l.getD (n + i * b) d

/-- The factor `2 * bit - 1` of metrics.py line 250, with decided bits
stored as 0.0/1.0. -/
noncomputable def bitSign (v : Bool) : ℝ := 2 * (if v then (1 : ℝ) else 0) - 1

/-- metrics.py lines 249-251: per-bit-position mutual information,
`1 - np.mean(np.log2(1 + np.exp((2 * btx[n::b] - 1) * LLRs[n::b])))`. -/
noncomputable def miBitPos (btx : List Bool) (LLRs : List ℝ) (b n : ℕ) : ℝ :=
  1 - npmean (List.zipWith
    (fun v L => Real.logb 2 (1 + Real.exp (bitSign v * L)))
    (sliceStride btx n b false) (sliceStride LLRs n b 0))

/-- metrics.py lines 110-117 / 221-228 (per-mode pre-processing): both
sequences are normalized to unit power with `pnorm`, then the rotation
`rot = np.mean(tx[:, k] / rx[:, k])` (computed on the normalized
sequences) is applied to the received one.  Returns the corrected pair
`(rx, tx)`. -/
noncomputable def alignPair (rxk txk : List ℂ) : List ℂ × List ℂ :=
  (((pnorm rxk).map fun z =>
      cmean (List.zipWith (fun t r => t / r) (pnorm txk) (pnorm rxk)) * z),
    pnorm txk)

/-- metrics.py lines 86 / 197: `Es = np.mean(np.abs(constSymb) ** 2)`. -/
noncomputable def EsOf (constSymb : List ℂ) : ℝ :=
  npmean (constSymb.map fun c => Complex.abs c ^ 2)

/-- Scalar multiple of a symbol sequence, e.g. `np.sqrt(Es) * rx`. -/
noncomputable def scaleC (s : ℝ) (x : List ℂ) : List ℂ :=
  x.map fun z => ((s : ℝ) : ℂ) * z

/-- metrics.py line 213: `noiseVar = np.var(rx - tx, axis=0)`, computed
on the sequences as passed in, BEFORE the normalization / phase
correction loop of lines 221-228. -/
noncomputable def gmiNoiseVar (rx tx : List (List ℂ)) : List ℝ :=
  List.zipWith (fun r t => npvar (List.zipWith (fun a c => a - c) r t)) rx tx

/-- The scalar `σ2 = noiseVar[k]` of metrics.py line 231: the noise
variance actually fed to `calcLLR` for mode `k`. -/
noncomputable def gmiSigma2Used (rx tx : List (List ℂ)) (k : ℕ) : ℝ :=
  (gmiNoiseVar rx tx).getD k 0

/-- Body of the per-mode loop of `monteCarloGMI` (metrics.py lines
229-251): decided reference bits `btx` from the aligned `tx` scaled by
`np.sqrt(Es)`, LLRs of the aligned `rx` against the unit-energy
constellation `constSymb / np.sqrt(Es)` with noise variance
`noiseVar[k]`, and the vector `MIperBitPosition` of length
`b = int(np.log2(M))`.  The clipping lines 240-241 only rewrite entries
equal to `±inf` (see `clipStep`); in the exact-real semantics every LLR
entry is a real number, so the list is unchanged by that step. -/
noncomputable def gmiModeMIperBit (rx tx : List (List ℂ)) (constSymb : List ℂ)
    (bitMap : List (List Bool)) (k : ℕ) : List ℝ :=
  (List.range (Nat.log2 constSymb.length)).map fun n =>
    miBitPos
      (hardDecision (scaleC (Real.sqrt (EsOf constSymb))
        (alignPair (rx.getD k []) (tx.getD k [])).2) constSymb bitMap)
      (calcLLR (alignPair (rx.getD k []) (tx.getD k [])).1
        (gmiSigma2Used rx tx k)
        (constSymb.map fun c => c / ((Real.sqrt (EsOf constSymb) : ℝ) : ℂ))
        bitMap)
      (Nat.log2 constSymb.length) n

/-- metrics.py lines 172-253, `monteCarloGMI` (after shape
canonicalization, with the constellation and bit map passed explicitly:
in the source they come from the external collaborators
`GrayMapping` / `demodulateGray`).  The loop over the `nModes =
tx.shape[1]` modes fills `GMI[k]` with the sum of the per-bit-position
mutual informations of mode `k`, while the local `MIperBitPosition`
array is overwritten on every iteration; the function returns the pair
`(GMI, MIperBitPosition)`, the second component being whatever the last
iteration left behind. -/
noncomputable def monteCarloGMI (rx tx : List (List ℂ)) (constSymb : List ℂ)
    (bitMap : List (List Bool)) : List ℝ × List ℝ :=
  (List.range tx.length).foldl
    (fun acc k =>
      (acc.1 ++ [(gmiModeMIperBit rx tx constSymb bitMap k).sum],
        gmiModeMIperBit rx tx constSymb bitMap k))
    ([], [])

/-- Mean of a boolean array, `np.mean(err)`: booleans are averaged
as 0.0 / 1.0 values. -/
noncomputable def berOf (err : List Bool) : ℝ :=
  npmean (err.map fun e => if e then (1 : ℝ) else 0)

/-- Row-major reshape of a flat list into rows of length `b`,
`err.reshape(-1, b)` (callers guarantee `b` divides the length; with
`b = 0` or an empty list numpy raises / gives nothing and we return `[]`). -/
def reshapeRows {α : Type} (b : ℕ) (l : List α) : List (List α) :=
  match l with
  | [] => []
  | x :: xs =>
      if _h : b = 0 then []
      else (x :: xs).take b :: reshapeRows b ((x :: xs).drop b)
termination_by l.length
decreasing_by
  simp [List.length_drop]
  omega

/-- metrics.py line 130:
`SER[k] = np.mean(np.sum(err.reshape(-1, b), axis=1) > 0)` — the
fraction of length-`b` groups containing at least one set bit (the row
sum of a boolean row counts its `true` entries). -/
noncomputable def serOf (b : ℕ) (err : List Bool) : ℝ :=
  npmean ((reshapeRows b err).map fun g =>
    if 0 < g.countP id then (1 : ℝ) else 0)

/-- metrics.py lines 125-128: hard decisions of the (aligned) received
and transmitted sequences, both scaled by `np.sqrt(Es)`, XOR-ed
elementwise (`np.logical_xor`). -/
noncomputable def modeErr (constSymb : List ℂ) (bitMap : List (List Bool))
    (rxk txk : List ℂ) : List Bool :=
  List.zipWith xor
    (hardDecision (scaleC (Real.sqrt (EsOf constSymb)) rxk) constSymb bitMap)
    (hardDecision (scaleC (Real.sqrt (EsOf constSymb)) txk) constSymb bitMap)

/-- metrics.py lines 59-131, `fastBERcalc` (after shape canonicalization,
constellation and bit map passed explicitly): per mode the pair is
aligned (lines 110-117), `SNR[k]` is the post-correction estimate
`10*log10(signal_power(tx) / signal_power(rx - tx))` (line 120-122), and
`BER[k]` / `SER[k]` come from the XOR of the two hard-decision bit
sequences (lines 123-130).  Returns `(BER, SER, SNR)`. -/
noncomputable def fastBERcalc (rx tx : List (List ℂ)) (constSymb : List ℂ)
    (bitMap : List (List Bool)) : List ℝ × List ℝ × List ℝ :=
  ((List.range tx.length).map fun k =>
      berOf (modeErr constSymb bitMap
        (alignPair (rx.getD k []) (tx.getD k [])).1
        (alignPair (rx.getD k []) (tx.getD k [])).2),
    (List.range tx.length).map fun k =>
      serOf (Nat.log2 constSymb.length) (modeErr constSymb bitMap
        (alignPair (rx.getD k []) (tx.getD k [])).1
        (alignPair (rx.getD k []) (tx.getD k [])).2),
    (List.range tx.length).map fun k =>
      10 * Real.logb 10
        (signal_power (alignPair (rx.getD k []) (tx.getD k [])).2 /
          signal_power (List.zipWith (fun a c => a - c)
            (alignPair (rx.getD k []) (tx.getD k [])).1
            (alignPair (rx.getD k []) (tx.getD k [])).2)))

/-- metrics.py lines 279-280 (`monteCarloMI`): the optional pmf defaults
to the uniform distribution `1/M * np.ones(M)` when the supplied list is
empty. -/
noncomputable def defaultPx (px : List ℝ) (M : ℕ) : List ℝ :=
  if px.length = 0 then List.replicate M (1 / (M : ℝ)) else px

/-- metrics.py line 283: `Es = np.sum(np.abs(constSymb) ** 2 * px)`,
the pmf-weighted mean symbol energy. -/
noncomputable def miEs (constSymb : List ℂ) (px : List ℝ) : ℝ :=
  (List.zipWith (fun c p => Complex.abs c ^ 2 * p) constSymb px).sum

/-- metrics.py line 284: `constSymb = constSymb / np.sqrt(Es)`. -/
noncomputable def miConst (constSymb : List ℂ) (px : List ℝ) : List ℂ :=
  constSymb.map fun c => c / ((Real.sqrt (miEs constSymb px) : ℝ) : ℂ)

end OpticMetrics

namespace OpticMetrics

lemma argminIdx_lt_length (l : List ℝ) (h : l ≠ []) : argminIdx l < l.length := by
  induction l with
  | nil => exact absurd rfl h
  | cons d rest ih =>
    cases rest with
    | nil => simp [argminIdx]
    | cons e tail =>
      simp only [argminIdx]
      split
      · have := ih (List.cons_ne_nil e tail)
        simp only [List.length_cons] at this ⊢
        omega
      · simp

lemma argminIdx_le (l : List ℝ) :
    ∀ k, k < l.length → l.getD (argminIdx l) 0 ≤ l.getD k 0 := by
  induction l with
  | nil => intro k hk; simp at hk
  | cons d rest ih =>
    intro k hk
    cases rest with
    | nil =>
      cases k with
      | zero => simp [argminIdx]
      | succ m => exact absurd hk (by simp)
    | cons e tail =>
      simp only [argminIdx]
      split
      · rename_i hlt
        cases k with
        | zero => simpa using le_of_lt hlt
        | succ m =>
          simp only [List.getD_cons_succ]
          exact ih m (by simpa using Nat.lt_of_succ_lt_succ hk)
      · rename_i hge
        push_neg at hge
        cases k with
        | zero => simp
        | succ m =>
          simp only [List.getD_cons_zero, List.getD_cons_succ]
          exact le_trans hge
            (ih m (by simpa using Nat.lt_of_succ_lt_succ hk))

lemma argminIdx_first (l : List ℝ) :
    ∀ k, k < argminIdx l → l.getD (argminIdx l) 0 < l.getD k 0 := by
  induction l with
  | nil => intro k hk; simp [argminIdx] at hk
  | cons d rest ih =>
    intro k hk
    cases rest with
    | nil => simp [argminIdx] at hk
    | cons e tail =>
      by_cases hcond : (e :: tail).getD (argminIdx (e :: tail)) 0 < d
      · simp only [argminIdx, if_pos hcond] at hk ⊢
        cases k with
        | zero => simpa using hcond
        | succ m =>
          simp only [List.getD_cons_succ]
          exact ih m (Nat.lt_of_succ_lt_succ hk)
      · simp only [argminIdx, if_neg hcond] at hk
        exact absurd hk (by omega)

lemma getD_map_of_lt {α β : Type} (f : α → β) (l : List α) (i : ℕ)
    (hi : i < l.length) (d : β) (e : α) : (l.map f).getD i d = f (l.getD i e) := by
  induction l generalizing i with
  | nil => simp at hi
  | cons a rest ih =>
    cases i with
    | zero => rfl
    | succ m => exact ih m (by simpa using Nat.lt_of_succ_lt_succ hi)

lemma argminIdx_map (f : ℝ → ℝ) (l : List ℝ)
    (hf : ∀ a ∈ l, ∀ c ∈ l, (f a < f c ↔ a < c)) :
    argminIdx (l.map f) = argminIdx l := by
  induction l with
  | nil => rfl
  | cons d rest ih =>
    cases rest with
    | nil => rfl
    | cons e tail =>
      have hrest : ∀ a ∈ e :: tail, ∀ c ∈ e :: tail, (f a < f c ↔ a < c) := by
        intro a ha c hc
        exact hf a (List.mem_cons_of_mem d ha) c (List.mem_cons_of_mem d hc)
      have hj : argminIdx (e :: tail) < (e :: tail).length :=
        argminIdx_lt_length _ (List.cons_ne_nil e tail)
      have hIH : argminIdx ((e :: tail).map f) = argminIdx (e :: tail) := ih hrest
      have hgd : ((e :: tail).map f).getD (argminIdx (e :: tail)) 0
          = f ((e :: tail).getD (argminIdx (e :: tail)) 0) :=
        getD_map_of_lt f (e :: tail) _ hj 0 0
      have hmem : (e :: tail).getD (argminIdx (e :: tail)) 0 ∈ e :: tail := by
        rw [List.getD_eq_getElem _ _ hj]
        exact List.getElem_mem hj
      have hiff := hf _ (List.mem_cons_of_mem d hmem) d (List.mem_cons_self d _)
      simp only [List.map_cons] at hIH hgd ⊢
      simp only [argminIdx]
      rw [hIH, hgd]
      by_cases hc : (e :: tail).getD (argminIdx (e :: tail)) 0 < d
      · rw [if_pos (hiff.mpr hc), if_pos hc]
      · rw [if_neg (fun hcon => hc (hiff.mp hcon)), if_neg hc]

lemma nearestIdx_eq_normSq (r : ℂ) (cs : List ℂ) :
    nearestIdx r cs = argminIdx (cs.map fun c => Complex.normSq (r - c)) := by
  unfold nearestIdx
  have hmap : (cs.map fun c => Complex.abs (r - c))
      = (cs.map fun c => Complex.normSq (r - c)).map Real.sqrt := by
    rw [List.map_map]
    congr 1
  rw [hmap]
  apply argminIdx_map
  intro a ha c hc
  simp only [List.mem_map] at ha
  obtain ⟨z, _, hz⟩ := ha
  have hnn : 0 ≤ a := hz ▸ Complex.normSq_nonneg _
  exact Real.sqrt_lt_sqrt_iff hnn

lemma nearestIdx_lt_length (r : ℂ) (cs : List ℂ) (h : cs ≠ []) :
    nearestIdx r cs < cs.length := by
  have := argminIdx_lt_length (cs.map fun c => Complex.abs (r - c)) (by simpa using h)
  simpa using this

lemma flatten_length_uniform {α : Type} (L : List (List α)) (b : ℕ)
    (h : ∀ g ∈ L, g.length = b) : L.flatten.length = L.length * b := by
  induction L with
  | nil => simp
  | cons g rest ih =>
    simp only [List.flatten_cons, List.length_append, List.length_cons]
    rw [h g (List.mem_cons_self g rest), ih (fun g2 hg2 => h g2 (List.mem_cons_of_mem g hg2))]
    ring

lemma flatten_getD_uniform {α : Type} (L : List (List α)) (b : ℕ) (d : α)
    (h : ∀ g ∈ L, g.length = b) (i t : ℕ) (hi : i < L.length) (ht : t < b) :
    L.flatten.getD (i * b + t) d = (L.getD i []).getD t d := by
  induction L generalizing i with
  | nil => simp at hi
  | cons g rest ih =>
    have hg : g.length = b := h g (List.mem_cons_self g rest)
    cases i with
    | zero =>
      simp only [List.flatten_cons, Nat.zero_mul, Nat.zero_add, List.getD_cons_zero]
      exact List.getD_append g rest.flatten d t (hg ▸ ht)
    | succ m =>
      simp only [List.flatten_cons, List.getD_cons_succ]
      have harith : (m + 1) * b + t = g.length + (m * b + t) := by rw [hg]; ring
      rw [harith, List.getD_append_right g rest.flatten d _ (Nat.le_add_right _ _),
        Nat.add_sub_cancel_left]
      exact ih (fun g2 hg2 => h g2 (List.mem_cons_of_mem g hg2)) m
        (by simpa using Nat.lt_of_succ_lt_succ hi)

lemma hardDecision_eq_flatten (rxSymb cs : List ℂ) (bm : List (List Bool)) :
    hardDecision rxSymb cs bm
      = (rxSymb.map fun r => bm.getD (nearestIdx r cs) []).flatten := by
  rw [hardDecision, List.flatMap_def]

/-- C3: `hardDecision` returns exactly `N*b` bits; the bits of symbol `i`
occupy positions `[i*b, i*b + b)` and equal the bit-map row of the
constellation index minimizing the Euclidean distance
`|rxSymb[i] - constSymb[j]|`, with ties broken by the first (lowest)
minimizing index; there are no error conditions, and an empty input
yields an empty output. -/
theorem hardDecision_spec (rxSymb constSymb : List ℂ) (bitMap : List (List Bool))
    (M b : ℕ) (hM : constSymb.length = M) (hpow : M = 2 ^ b)
    (hbm : bitMap.length = M) (hrows : ∀ row ∈ bitMap, row.length = b) :
    (hardDecision rxSymb constSymb bitMap).length = rxSymb.length * b ∧
    (∀ i, i < rxSymb.length → ∃ j, j < M ∧
      (∀ t, t < b → (hardDecision rxSymb constSymb bitMap).getD (i * b + t) false
          = (bitMap.getD j []).getD t false) ∧
      (∀ j2, j2 < M → Complex.abs (rxSymb.getD i 0 - constSymb.getD j 0)
          ≤ Complex.abs (rxSymb.getD i 0 - constSymb.getD j2 0)) ∧
      (∀ j2, j2 < j → Complex.abs (rxSymb.getD i 0 - constSymb.getD j 0)
          < Complex.abs (rxSymb.getD i 0 - constSymb.getD j2 0))) ∧
    (rxSymb = [] → hardDecision rxSymb constSymb bitMap = []) := by
  have hcs_ne : constSymb ≠ [] := by
    intro hcon
    rw [hcon] at hM
    simp at hM
    rw [← hM] at hpow
    exact absurd hpow.symm (Nat.pos_iff_ne_zero.mp (Nat.pos_pow_of_pos b (by norm_num)))
  have hrows2 : ∀ g ∈ (rxSymb.map fun r => bitMap.getD (nearestIdx r constSymb) []), g.length = b := by
    intro g hg
    simp only [List.mem_map] at hg
    obtain ⟨r, _, hr⟩ := hg
    have hn : nearestIdx r constSymb < bitMap.length := by
      rw [hbm, ← hM]
      exact nearestIdx_lt_length r constSymb hcs_ne
    rw [← hr]
    apply hrows
    rw [List.getD_eq_getElem _ _ hn]
    exact List.getElem_mem hn
  refine ⟨?_, ?_, ?_⟩
  · rw [hardDecision_eq_flatten]
    rw [flatten_length_uniform _ b hrows2]
    simp
  · intro i hi
    refine ⟨nearestIdx (rxSymb.getD i 0) constSymb, ?_, ?_, ?_, ?_⟩
    · rw [← hM]
      exact nearestIdx_lt_length _ constSymb hcs_ne
    · intro t ht
      rw [hardDecision_eq_flatten]
      rw [flatten_getD_uniform _ b false hrows2 i t (by simpa using hi) ht]
      rw [getD_map_of_lt _ rxSymb i hi _ 0]
    · intro j2 hj2
      have hlist := argminIdx_le (constSymb.map fun c =>
        Complex.abs (rxSymb.getD i 0 - c)) j2 (by simpa using hM ▸ hj2)
      have hb1 : nearestIdx (rxSymb.getD i 0) constSymb < constSymb.length :=
        nearestIdx_lt_length _ constSymb hcs_ne
      rw [show argminIdx (constSymb.map fun c => Complex.abs (rxSymb.getD i 0 - c))
          = nearestIdx (rxSymb.getD i 0) constSymb from rfl] at hlist
      rw [getD_map_of_lt _ constSymb _ hb1 _ 0, getD_map_of_lt _ constSymb _ (hM ▸ hj2) _ 0] at hlist
      exact hlist
    · intro j2 hj2
      have hb1 : nearestIdx (rxSymb.getD i 0) constSymb < constSymb.length :=
        nearestIdx_lt_length _ constSymb hcs_ne
      have hlist := argminIdx_first (constSymb.map fun c =>
        Complex.abs (rxSymb.getD i 0 - c)) j2 hj2
      have hj2' : j2 < constSymb.length := lt_trans hj2 hb1
      rw [show argminIdx (constSymb.map fun c => Complex.abs (rxSymb.getD i 0 - c))
          = nearestIdx (rxSymb.getD i 0) constSymb from rfl] at hlist
      rw [getD_map_of_lt _ constSymb _ hb1 _ 0, getD_map_of_lt _ constSymb _ hj2' _ 0] at hlist
      exact hlist
  · intro h
    rw [h]
    rfl

/-- Witness for C3 at a concrete BPSK-like input. -/
theorem hardDecision_spec_witness :
    (([(1 : ℂ), -1]).length = 2 ∧ (2 : ℕ) = 2 ^ 1 ∧
      ([[false], [true]] : List (List Bool)).length = 2 ∧
      (∀ row ∈ ([[false], [true]] : List (List Bool)), row.length = 1)) ∧
    ((hardDecision [0] [(1 : ℂ), -1] [[false], [true]]).length = [(0 : ℂ)].length * 1 ∧
    (∀ i, i < [(0 : ℂ)].length → ∃ j, j < 2 ∧
      (∀ t, t < 1 → (hardDecision [0] [(1 : ℂ), -1] [[false], [true]]).getD (i * 1 + t) false
          = (([[false], [true]] : List (List Bool)).getD j []).getD t false) ∧
      (∀ j2, j2 < 2 → Complex.abs (([(0 : ℂ)]).getD i 0 - ([(1 : ℂ), -1]).getD j 0)
          ≤ Complex.abs (([(0 : ℂ)]).getD i 0 - ([(1 : ℂ), -1]).getD j2 0)) ∧
      (∀ j2, j2 < j → Complex.abs (([(0 : ℂ)]).getD i 0 - ([(1 : ℂ), -1]).getD j 0)
          < Complex.abs (([(0 : ℂ)]).getD i 0 - ([(1 : ℂ), -1]).getD j2 0))) ∧
    ([(0 : ℂ)] = [] → hardDecision [0] [(1 : ℂ), -1] [[false], [true]] = [])) :=
  ⟨⟨rfl, by norm_num, rfl, by decide⟩,
    hardDecision_spec [0] [(1 : ℂ), -1] [[false], [true]] 2 1 rfl (by norm_num) rfl (by decide)⟩

end OpticMetrics

namespace OpticMetrics

lemma clipLLRs_getD (l : List FloatVal) (i : ℕ) (hi : i < l.length) :
    (clipLLRs l).getD i .nan = clipStep (l.getD i .nan) :=
  getD_map_of_lt clipStep l i hi .nan .nan

/-- C9: the LLR clipping step (metrics.py lines 240-241) rewrites exactly
the entries equal to `+inf` or `-inf`; any other entry — any finite
value, in particular finite values of magnitude greater than 500, and
NaN — is left unchanged in place, and the length of the array is
preserved. -/
theorem clipLLRs_frame (l : List FloatVal) :
    (clipLLRs l).length = l.length ∧
    ∀ i, i < l.length →
      (∀ x : ℝ, l.getD i .nan = FloatVal.fin x →
        (clipLLRs l).getD i .nan = FloatVal.fin x) ∧
      (l.getD i .nan = FloatVal.nan → (clipLLRs l).getD i .nan = FloatVal.nan) ∧
      ((clipLLRs l).getD i .nan ≠ l.getD i .nan →
        l.getD i .nan = FloatVal.pinf ∨ l.getD i .nan = FloatVal.ninf) := by
  refine ⟨by simp [clipLLRs], ?_⟩
  intro i hi
  rw [clipLLRs_getD l i hi]
  refine ⟨?_, ?_, ?_⟩
  · intro x hx
    rw [hx]
    rfl
  · intro hx
    rw [hx]
    rfl
  · intro hne
    cases hv : l.getD i .nan with
    | fin x => rw [hv] at hne; exact absurd rfl hne
    | pinf => exact Or.inl rfl
    | ninf => exact Or.inr rfl
    | nan => rw [hv] at hne; exact absurd rfl hne

/-- Witness for C9 at a concrete three-entry LLR array holding a large
finite value, a NaN and an infinity. -/
theorem clipLLRs_frame_witness :
    (1 < ([FloatVal.fin 600, FloatVal.nan, FloatVal.pinf]).length) ∧
    ((∀ x : ℝ, ([FloatVal.fin 600, FloatVal.nan, FloatVal.pinf]).getD 1 .nan = FloatVal.fin x →
        (clipLLRs [FloatVal.fin 600, FloatVal.nan, FloatVal.pinf]).getD 1 .nan = FloatVal.fin x) ∧
      (([FloatVal.fin 600, FloatVal.nan, FloatVal.pinf]).getD 1 .nan = FloatVal.nan →
        (clipLLRs [FloatVal.fin 600, FloatVal.nan, FloatVal.pinf]).getD 1 .nan = FloatVal.nan) ∧
      ((clipLLRs [FloatVal.fin 600, FloatVal.nan, FloatVal.pinf]).getD 1 .nan ≠
          ([FloatVal.fin 600, FloatVal.nan, FloatVal.pinf]).getD 1 .nan →
        ([FloatVal.fin 600, FloatVal.nan, FloatVal.pinf]).getD 1 .nan = FloatVal.pinf ∨
        ([FloatVal.fin 600, FloatVal.nan, FloatVal.pinf]).getD 1 .nan = FloatVal.ninf)) :=
  ⟨by simp, (clipLLRs_frame [FloatVal.fin 600, FloatVal.nan, FloatVal.pinf]).2 1 (by simp)⟩

/-- C2 (amended): after the clipping step no entry of the LLR array is
`+inf` or `-inf` any more — each infinite entry has been replaced by the
finite value `+500` / `-500`.  (The original claim's bound `|LLR| <= 500`
on all entries does not hold: finite entries are passed through
untouched, whatever their magnitude — see the counterexample.) -/
theorem clipLLRs_removes_infinities (l : List FloatVal) :
    ∀ i, i < l.length →
      (clipLLRs l).getD i .nan ≠ FloatVal.pinf ∧
      (clipLLRs l).getD i .nan ≠ FloatVal.ninf ∧
      (l.getD i .nan = FloatVal.pinf → (clipLLRs l).getD i .nan = FloatVal.fin 500) ∧
      (l.getD i .nan = FloatVal.ninf → (clipLLRs l).getD i .nan = FloatVal.fin (-500)) := by
  intro i hi
  rw [clipLLRs_getD l i hi]
  refine ⟨?_, ?_, ?_, ?_⟩
  · cases hv : l.getD i .nan <;> simp [clipStep]
  · cases hv : l.getD i .nan <;> simp [clipStep]
  · intro hx
    rw [hx]
    rfl
  · intro hx
    rw [hx]
    rfl

/-- Witness for the amended C2 at a concrete LLR array containing both
infinities. -/
theorem clipLLRs_removes_infinities_witness :
    (0 < ([FloatVal.pinf, FloatVal.ninf, FloatVal.fin 7]).length) ∧
    ((clipLLRs [FloatVal.pinf, FloatVal.ninf, FloatVal.fin 7]).getD 0 .nan ≠ FloatVal.pinf ∧
      (clipLLRs [FloatVal.pinf, FloatVal.ninf, FloatVal.fin 7]).getD 0 .nan ≠ FloatVal.ninf ∧
      (([FloatVal.pinf, FloatVal.ninf, FloatVal.fin 7]).getD 0 .nan = FloatVal.pinf →
        (clipLLRs [FloatVal.pinf, FloatVal.ninf, FloatVal.fin 7]).getD 0 .nan = FloatVal.fin 500) ∧
      (([FloatVal.pinf, FloatVal.ninf, FloatVal.fin 7]).getD 0 .nan = FloatVal.ninf →
        (clipLLRs [FloatVal.pinf, FloatVal.ninf, FloatVal.fin 7]).getD 0 .nan = FloatVal.fin (-500))) :=
  ⟨by simp, clipLLRs_removes_infinities [FloatVal.pinf, FloatVal.ninf, FloatVal.fin 7] 0 (by simp)⟩

end OpticMetrics

namespace OpticMetrics

lemma sum_mul_conj (x : List ℂ) :
    (x.map fun z => z * (starRingEnd ℂ) z).sum
      = (((x.map Complex.normSq).sum : ℝ) : ℂ) := by
  induction x with
  | nil => simp
  | cons a t ih =>
    rw [List.map_cons, List.sum_cons, ih, Complex.mul_conj, List.map_cons,
      List.sum_cons, Complex.ofReal_add]

lemma signal_power_eq (x : List ℂ) :
    signal_power x = npmean (x.map Complex.normSq) := by
  unfold signal_power cmean npmean
  rw [sum_mul_conj]
  simp only [List.length_map]
  rw [show ((x.length : ℕ) : ℂ) = (((x.length : ℕ) : ℝ) : ℂ) from by push_cast; ring]
  rw [← Complex.ofReal_div, Complex.ofReal_re]

lemma npvar_eq (xs : List ℂ) :
    npvar xs = npmean (xs.map fun z => Complex.normSq (z - cmean xs)) := by
  unfold npvar
  simp only [Complex.sq_abs]

lemma sp_a : signal_power [(((21:ℝ)/20 : ℝ) : ℂ), -(((21:ℝ)/20 : ℝ) : ℂ)] = ((21:ℝ)/20)^2 := by
  rw [signal_power_eq]
  unfold npmean
  simp [Complex.normSq_neg, Complex.normSq_ofReal]
  norm_num

lemma sp_b : signal_power [(1 : ℂ), -1] = 1 := by
  rw [signal_power_eq]
  unfold npmean
  simp [Complex.normSq_neg]

lemma pn_a : pnorm [(((21:ℝ)/20 : ℝ) : ℂ), -(((21:ℝ)/20 : ℝ) : ℂ)] = [1, -1] := by
  unfold pnorm
  rw [sp_a, Real.sqrt_sq (by norm_num)]
  have hne : ((((21:ℝ)/20 : ℝ)) : ℂ) ≠ 0 := by
    rw [Complex.ofReal_ne_zero]
    norm_num
  simp [div_self hne, neg_div]

lemma pn_b : pnorm [(1 : ℂ), -1] = [1, -1] := by
  unfold pnorm
  rw [sp_b, Real.sqrt_one]
  simp

lemma align_eval : alignPair [(((21:ℝ)/20 : ℝ) : ℂ), -(((21:ℝ)/20 : ℝ) : ℂ)] [(1 : ℂ), -1]
    = ([1, -1], [1, -1]) := by
  unfold alignPair
  rw [pn_a, pn_b]
  have hrot : cmean (List.zipWith (fun t r => t / r) [(1 : ℂ), -1] [(1 : ℂ), -1]) = 1 := by
    unfold cmean
    norm_num
  rw [hrot]
  simp

lemma sigma2_eval :
    gmiSigma2Used [[(((21:ℝ)/20 : ℝ) : ℂ), -(((21:ℝ)/20 : ℝ) : ℂ)]] [[(1 : ℂ), -1]] 0
      = 1/400 := by
  unfold gmiSigma2Used gmiNoiseVar
  have h1 : (((21:ℝ)/20 : ℝ) : ℂ) - 1 = (((1:ℝ)/20 : ℝ) : ℂ) := by
    push_cast
    norm_num
  have h2 : -(((21:ℝ)/20 : ℝ) : ℂ) - -1 = -(((1:ℝ)/20 : ℝ) : ℂ) := by
    push_cast
    norm_num
  simp only [List.zipWith_cons_cons, List.zipWith_nil_left, List.getD_cons_zero]
  rw [h1, h2, npvar_eq]
  have hc : cmean [(((1:ℝ)/20 : ℝ) : ℂ), -(((1:ℝ)/20 : ℝ) : ℂ)] = 0 := by
    unfold cmean
    norm_num
  rw [hc]
  unfold npmean
  simp [Complex.normSq_neg, Complex.normSq_ofReal]
  norm_num

lemma Es_eval : EsOf [(1 : ℂ), -1] = 1 := by
  unfold EsOf npmean
  simp [Complex.sq_abs, Complex.normSq_neg]

lemma csnorm_eval :
    ([(1 : ℂ), -1]).map (fun c => c / ((Real.sqrt (EsOf [(1 : ℂ), -1]) : ℝ) : ℂ))
      = [(1 : ℂ), -1] := by
  rw [Es_eval, Real.sqrt_one]
  simp

end OpticMetrics

namespace OpticMetrics

lemma maskedSum_pair_false (p q : ℝ) : maskedSum [p, q] [false, true] false = p := by
  simp [maskedSum, List.zip]

lemma maskedSum_pair_true (p q : ℝ) : maskedSum [p, q] [false, true] true = q := by
  simp [maskedSum, List.zip]

lemma sp_c : signal_power [(((13:ℝ)/12 : ℝ) : ℂ), -(((13:ℝ)/12 : ℝ) : ℂ)] = ((13:ℝ)/12)^2 := by
  rw [signal_power_eq]
  unfold npmean
  simp [Complex.normSq_neg, Complex.normSq_ofReal]
  norm_num

lemma pn_c : pnorm [(((13:ℝ)/12 : ℝ) : ℂ), -(((13:ℝ)/12 : ℝ) : ℂ)] = [1, -1] := by
  unfold pnorm
  rw [sp_c, Real.sqrt_sq (by norm_num)]
  have hne : ((((13:ℝ)/12 : ℝ)) : ℂ) ≠ 0 := by
    rw [Complex.ofReal_ne_zero]
    norm_num
  simp [div_self hne, neg_div]

lemma align_eval_c : alignPair [(((13:ℝ)/12 : ℝ) : ℂ), -(((13:ℝ)/12 : ℝ) : ℂ)] [(1 : ℂ), -1]
    = ([1, -1], [1, -1]) := by
  unfold alignPair
  rw [pn_c, pn_b]
  have hrot : cmean (List.zipWith (fun t r => t / r) [(1 : ℂ), -1] [(1 : ℂ), -1]) = 1 := by
    unfold cmean
    norm_num
  rw [hrot]
  simp

lemma sigma2_eval_c :
    gmiSigma2Used [[(((13:ℝ)/12 : ℝ) : ℂ), -(((13:ℝ)/12 : ℝ) : ℂ)]] [[(1 : ℂ), -1]] 0
      = 1/144 := by
  unfold gmiSigma2Used gmiNoiseVar
  have h1 : (((13:ℝ)/12 : ℝ) : ℂ) - 1 = (((1:ℝ)/12 : ℝ) : ℂ) := by
    push_cast
    norm_num
  have h2 : -(((13:ℝ)/12 : ℝ) : ℂ) - -1 = -(((1:ℝ)/12 : ℝ) : ℂ) := by
    push_cast
    norm_num
  simp only [List.zipWith_cons_cons, List.zipWith_nil_left, List.getD_cons_zero]
  rw [h1, h2, npvar_eq]
  have hc : cmean [(((1:ℝ)/12 : ℝ) : ℂ), -(((1:ℝ)/12 : ℝ) : ℂ)] = 0 := by
    unfold cmean
    norm_num
  rw [hc]
  unfold npmean
  simp [Complex.normSq_neg, Complex.normSq_ofReal]
  norm_num

lemma llr_eval :
    calcLLR [(1 : ℂ), -1] (1/144) [(1 : ℂ), -1] [[false], [true]] = [576, -576] := by
  unfold calcLLR
  have hb : Nat.log2 ([(1 : ℂ), -1]).length = 1 := by
    norm_num [Nat.log2]
  rw [hb, show List.range 1 = [0] from rfl]
  simp only [List.flatMap_cons, List.flatMap_nil, List.map_cons, List.map_nil,
    List.append_nil]
  rw [show colBit [[false], [true]] 0 = [false, true] from rfl]
  have e0 : Real.exp (-Complex.abs ((1 : ℂ) - 1) ^ 2 / (1/144)) = 1 := by
    rw [sub_self]
    simp
  have e2 : Real.exp (-Complex.abs ((1 : ℂ) - -1) ^ 2 / (1/144)) = Real.exp (-576) := by
    rw [show (1 : ℂ) - -1 = 2 by norm_num, Complex.sq_abs]
    rw [show Complex.normSq 2 = 4 by rw [Complex.normSq_apply]; simp; norm_num]
    norm_num
  have e3 : Real.exp (-Complex.abs ((-1 : ℂ) - 1) ^ 2 / (1/144)) = Real.exp (-576) := by
    rw [show (-1 : ℂ) - 1 = -2 by norm_num, Complex.sq_abs, Complex.normSq_neg]
    rw [show Complex.normSq 2 = 4 by rw [Complex.normSq_apply]; simp; norm_num]
    norm_num
  have e4 : Real.exp (-Complex.abs ((-1 : ℂ) - -1) ^ 2 / (1/144)) = 1 := by
    rw [sub_neg_eq_add, neg_add_cancel]
    simp
  rw [e0, e2, e3, e4]
  rw [maskedSum_pair_false, maskedSum_pair_true, maskedSum_pair_false, maskedSum_pair_true]
  rw [Real.log_one, Real.log_exp]
  norm_num

/-- C2 (counterexample): on the single-mode input
`rx = [13/12, -13/12]`, `tx = [1, -1]` with the BPSK constellation
`[1, -1]` and bit map `[[0], [1]]`, the LLR sequence computed inside
`monteCarloGMI` (the aligned received sequence, the noise variance
`noiseVar[0] = 1/144`, and the unit-energy constellation, exactly as in
`gmiModeMIperBit`) equals `[576, -576]`.  The extreme likelihood here is
`exp(-576)`, which is far above the smallest positive IEEE double
(about `5e-324`), so the floating-point program also obtains the finite
values `±576` — no infinity arises and the clipping lines 240-241 leave
these entries unchanged.  An LLR of absolute value `576 > 500` is
therefore used by the per-bit-position mutual-information computation,
refuting the claimed bound of 500. -/
theorem llr_clip_bound_counterexample :
    calcLLR
        (alignPair (([[(((13:ℝ)/12 : ℝ) : ℂ), -(((13:ℝ)/12 : ℝ) : ℂ)]] : List (List ℂ)).getD 0 [])
          (([[(1 : ℂ), -1]] : List (List ℂ)).getD 0 [])).1
        (gmiSigma2Used [[(((13:ℝ)/12 : ℝ) : ℂ), -(((13:ℝ)/12 : ℝ) : ℂ)]] [[(1 : ℂ), -1]] 0)
        (([(1 : ℂ), -1]).map fun c => c / ((Real.sqrt (EsOf [(1 : ℂ), -1]) : ℝ) : ℂ))
        [[false], [true]]
      = [576, -576] ∧
    clipLLRs [FloatVal.fin 576, FloatVal.fin (-576)]
      = [FloatVal.fin 576, FloatVal.fin (-576)] ∧
    ¬ |(576 : ℝ)| ≤ 500 := by
  refine ⟨?_, rfl, by norm_num⟩
  rw [show ([[(((13:ℝ)/12 : ℝ) : ℂ), -(((13:ℝ)/12 : ℝ) : ℂ)]] : List (List ℂ)).getD 0 []
      = [(((13:ℝ)/12 : ℝ) : ℂ), -(((13:ℝ)/12 : ℝ) : ℂ)] from rfl]
  rw [show ([[(1 : ℂ), -1]] : List (List ℂ)).getD 0 [] = [(1 : ℂ), -1] from rfl]
  rw [align_eval_c, csnorm_eval, sigma2_eval_c]
  exact llr_eval

/-- C1: in `monteCarloGMI` the noise variance fed to the LLR computation
of mode `k` is `np.var(rx - tx)` evaluated on the input sequences BEFORE
the per-mode unit-power normalization and phase/amplitude correction,
not after.  On the single-mode input `rx = [21/20, -21/20]`,
`tx = [1, -1]` the variance used is `1/400`, while the sample variance
of `(rx - tx)` taken after alignment is `0`, so the two disagree. -/
theorem gmi_noise_variance_before_alignment :
    gmiSigma2Used [[(((21:ℝ)/20 : ℝ) : ℂ), -(((21:ℝ)/20 : ℝ) : ℂ)]] [[(1 : ℂ), -1]] 0
      = 1/400 ∧
    npvar (List.zipWith (fun a c => a - c)
        (alignPair (([[(((21:ℝ)/20 : ℝ) : ℂ), -(((21:ℝ)/20 : ℝ) : ℂ)]] : List (List ℂ)).getD 0 [])
          (([[(1 : ℂ), -1]] : List (List ℂ)).getD 0 [])).1
        (alignPair (([[(((21:ℝ)/20 : ℝ) : ℂ), -(((21:ℝ)/20 : ℝ) : ℂ)]] : List (List ℂ)).getD 0 [])
          (([[(1 : ℂ), -1]] : List (List ℂ)).getD 0 [])).2)
      = 0 ∧
    (1/400 : ℝ) ≠ 0 := by
  refine ⟨sigma2_eval, ?_, by norm_num⟩
  rw [show ([[(((21:ℝ)/20 : ℝ) : ℂ), -(((21:ℝ)/20 : ℝ) : ℂ)]] : List (List ℂ)).getD 0 []
      = [(((21:ℝ)/20 : ℝ) : ℂ), -(((21:ℝ)/20 : ℝ) : ℂ)] from rfl]
  rw [show ([[(1 : ℂ), -1]] : List (List ℂ)).getD 0 [] = [(1 : ℂ), -1] from rfl]
  rw [align_eval]
  simp only [List.zipWith_cons_cons, List.zipWith_nil_left, sub_self]
  rw [npvar_eq]
  have hc : cmean [(0 : ℂ), 0] = 0 := by
    unfold cmean
    norm_num
  rw [hc]
  unfold npmean
  norm_num

end OpticMetrics

namespace OpticMetrics

lemma getD_map_range {α : Type} (f : ℕ → α) (n k : ℕ) (hk : k < n) (d : α) :
    ((List.range n).map f).getD k d = f k := by
  rw [getD_map_of_lt f (List.range n) k (by simpa using hk) d 0]
  congr 1
  rw [List.getD_eq_getElem _ _ (by simpa using hk)]
  simp

lemma maskedSum_eq_sum (f : ℂ → ℝ) (cs : List ℂ) (mask : List Bool) (v : Bool)
    (hlen : mask.length = cs.length) :
    maskedSum (cs.map f) mask v
      = ∑ j ∈ Finset.range cs.length,
          if mask.getD j false = v then f (cs.getD j 0) else 0 := by
  induction cs generalizing mask with
  | nil => simp [maskedSum]
  | cons c t ih =>
    obtain ⟨m, ms, rfl⟩ : ∃ m ms, mask = m :: ms := by
      cases mask with
      | nil => simp at hlen
      | cons m ms => exact ⟨m, ms, rfl⟩
    rw [List.length_cons, Finset.sum_range_succ']
    simp only [List.getD_cons_succ, List.getD_cons_zero]
    rw [← ih ms (by simpa using hlen)]
    unfold maskedSum
    simp only [List.map_cons, List.zip_cons_cons, List.filter_cons]
    by_cases hm : m = v
    · simp [hm, add_comm]
    · simp [hm]

lemma calcLLR_eq_flatten (rxSymb : List ℂ) (σ2 : ℝ) (cs : List ℂ)
    (bm : List (List Bool)) :
    calcLLR rxSymb σ2 cs bm
      = (rxSymb.map fun r => (List.range (Nat.log2 cs.length)).map fun indBit =>
          Real.log (maskedSum (cs.map fun c =>
              Real.exp (-Complex.abs (r - c) ^ 2 / σ2)) (colBit bm indBit) false) -
            Real.log (maskedSum (cs.map fun c =>
              Real.exp (-Complex.abs (r - c) ^ 2 / σ2)) (colBit bm indBit) true)).flatten := by
  unfold calcLLR
  rw [List.flatMap_def]

/-- C4: `calcLLR` returns, at output position `i*b + indBit`, the
difference of the logarithms of the bit-0 and bit-1 Gaussian-likelihood
masses `log(sum over j with bitMap[j,indBit]=0 of exp(-|r_i - c_j|^2/σ2))
- log(sum over j with bitMap[j,indBit]=1 of the same)`, in the same
flattened ordering (and total length `N*b`) as the hard-decision
demodulator. -/
theorem calcLLR_spec (rxSymb : List ℂ) (σ2 : ℝ) (constSymb : List ℂ)
    (bitMap : List (List Bool)) (M b : ℕ)
    (hM : constSymb.length = M) (hpow : M = 2 ^ b)
    (hbm : bitMap.length = M) (hσ : 0 < σ2) :
    (calcLLR rxSymb σ2 constSymb bitMap).length = rxSymb.length * b ∧
    (∀ i, i < rxSymb.length → ∀ indBit, indBit < b →
      (calcLLR rxSymb σ2 constSymb bitMap).getD (i * b + indBit) 0
        = Real.log (∑ j ∈ Finset.range M,
            if (bitMap.getD j []).getD indBit false = false then
              Real.exp (-Complex.abs (rxSymb.getD i 0 - constSymb.getD j 0) ^ 2 / σ2)
            else 0)
          - Real.log (∑ j ∈ Finset.range M,
            if (bitMap.getD j []).getD indBit false = true then
              Real.exp (-Complex.abs (rxSymb.getD i 0 - constSymb.getD j 0) ^ 2 / σ2)
            else 0)) := by
  have hb2 : Nat.log2 constSymb.length = b := by
    rw [hM, hpow]
    exact Nat.log2_two_pow
  have hrows : ∀ g ∈ (rxSymb.map fun r => (List.range (Nat.log2 constSymb.length)).map fun indBit =>
      Real.log (maskedSum (constSymb.map fun c =>
          Real.exp (-Complex.abs (r - c) ^ 2 / σ2)) (colBit bitMap indBit) false) -
        Real.log (maskedSum (constSymb.map fun c =>
          Real.exp (-Complex.abs (r - c) ^ 2 / σ2)) (colBit bitMap indBit) true)),
      g.length = b := by
    intro g hg
    simp only [List.mem_map] at hg
    obtain ⟨r, _, hr⟩ := hg
    rw [← hr]
    simp [hb2]
  constructor
  · rw [calcLLR_eq_flatten, flatten_length_uniform _ b hrows]
    simp
  · intro i hi indBit hIndBit
    rw [calcLLR_eq_flatten,
      flatten_getD_uniform _ b 0 hrows i indBit (by simpa using hi) hIndBit,
      getD_map_of_lt _ rxSymb i hi _ 0, hb2, getD_map_range _ b indBit hIndBit 0]
    have hcol : (colBit bitMap indBit).length = constSymb.length := by
      simp [colBit, hbm, hM]
    rw [maskedSum_eq_sum _ constSymb _ false hcol,
      maskedSum_eq_sum _ constSymb _ true hcol, hM]
    have hcongr : ∀ v : Bool, ∑ j ∈ Finset.range M,
        (if (colBit bitMap indBit).getD j false = v then
          Real.exp (-Complex.abs (rxSymb.getD i 0 - constSymb.getD j 0) ^ 2 / σ2)
        else 0)
        = ∑ j ∈ Finset.range M,
        (if (bitMap.getD j []).getD indBit false = v then
          Real.exp (-Complex.abs (rxSymb.getD i 0 - constSymb.getD j 0) ^ 2 / σ2)
        else 0) := by
      intro v
      apply Finset.sum_congr rfl
      intro j hj
      rw [Finset.mem_range] at hj
      rw [show (colBit bitMap indBit).getD j false
          = (bitMap.getD j []).getD indBit false from
        getD_map_of_lt _ bitMap j (hbm ▸ hj) false []]
    rw [hcongr false, hcongr true]

/-- Witness for C4 at a concrete BPSK input. -/
theorem calcLLR_spec_witness :
    (([(1 : ℂ), -1]).length = 2 ∧ (2 : ℕ) = 2 ^ 1 ∧
      ([[false], [true]] : List (List Bool)).length = 2 ∧ (0 : ℝ) < 1) ∧
    ((calcLLR [(0 : ℂ)] 1 [(1 : ℂ), -1] [[false], [true]]).length = [(0 : ℂ)].length * 1 ∧
    (∀ i, i < [(0 : ℂ)].length → ∀ indBit, indBit < 1 →
      (calcLLR [(0 : ℂ)] 1 [(1 : ℂ), -1] [[false], [true]]).getD (i * 1 + indBit) 0
        = Real.log (∑ j ∈ Finset.range 2,
            if (([[false], [true]] : List (List Bool)).getD j []).getD indBit false = false then
              Real.exp (-Complex.abs (([(0 : ℂ)]).getD i 0 - ([(1 : ℂ), -1]).getD j 0) ^ 2 / 1)
            else 0)
          - Real.log (∑ j ∈ Finset.range 2,
            if (([[false], [true]] : List (List Bool)).getD j []).getD indBit false = true then
              Real.exp (-Complex.abs (([(0 : ℂ)]).getD i 0 - ([(1 : ℂ), -1]).getD j 0) ^ 2 / 1)
            else 0))) :=
  ⟨⟨rfl, by norm_num, rfl, by norm_num⟩,
    calcLLR_spec [(0 : ℂ)] 1 [(1 : ℂ), -1] [[false], [true]] 2 1 rfl (by norm_num) rfl
      (by norm_num)⟩

end OpticMetrics

namespace OpticMetrics

lemma gmi_foldl_fst (rx tx : List (List ℂ)) (cs : List ℂ) (bm : List (List Bool)) :
    ∀ (l : List ℕ) (acc : List ℝ × List ℝ),
      (l.foldl (fun acc k =>
          (acc.1 ++ [(gmiModeMIperBit rx tx cs bm k).sum], gmiModeMIperBit rx tx cs bm k)) acc).1
        = acc.1 ++ l.map (fun k => (gmiModeMIperBit rx tx cs bm k).sum) := by
  intro l
  induction l with
  | nil => intro acc; simp
  | cons a t ih =>
    intro acc
    rw [List.foldl_cons, ih]
    simp

lemma gmiModeMIperBit_length (rx tx : List (List ℂ)) (cs : List ℂ)
    (bm : List (List Bool)) (k : ℕ) :
    (gmiModeMIperBit rx tx cs bm k).length = Nat.log2 cs.length := by
  unfold gmiModeMIperBit
  simp

/-- C6: for any input with at least one mode, `monteCarloGMI` returns a
GMI array with one entry per mode, together with a single
per-bit-position mutual-information array of length `b` whose entries
are exactly those computed for the last processed mode
(mode index `nModes - 1`). -/
theorem monteCarloGMI_last_mode (rx tx : List (List ℂ)) (cs : List ℂ)
    (bm : List (List Bool)) (h : 0 < tx.length) :
    (monteCarloGMI rx tx cs bm).1.length = tx.length ∧
    (monteCarloGMI rx tx cs bm).2 = gmiModeMIperBit rx tx cs bm (tx.length - 1) ∧
    (gmiModeMIperBit rx tx cs bm (tx.length - 1)).length = Nat.log2 cs.length := by
  obtain ⟨n, hn⟩ : ∃ n, tx.length = n + 1 := ⟨tx.length - 1, by omega⟩
  refine ⟨?_, ?_, gmiModeMIperBit_length rx tx cs bm (tx.length - 1)⟩
  · unfold monteCarloGMI
    rw [gmi_foldl_fst]
    simp
  · unfold monteCarloGMI
    rw [hn, List.range_succ, List.foldl_append, List.foldl_cons, List.foldl_nil]
    simp [hn]

/-- Witness for C6 on a concrete two-mode input. -/
theorem monteCarloGMI_last_mode_witness :
    (0 < ([[(1 : ℂ)], [(2 : ℂ)]] : List (List ℂ)).length) ∧
    ((monteCarloGMI [[(1 : ℂ)], [(1 : ℂ)]] [[(1 : ℂ)], [(2 : ℂ)]] [(1 : ℂ), -1] [[false], [true]]).1.length
        = ([[(1 : ℂ)], [(2 : ℂ)]] : List (List ℂ)).length ∧
      (monteCarloGMI [[(1 : ℂ)], [(1 : ℂ)]] [[(1 : ℂ)], [(2 : ℂ)]] [(1 : ℂ), -1] [[false], [true]]).2
        = gmiModeMIperBit [[(1 : ℂ)], [(1 : ℂ)]] [[(1 : ℂ)], [(2 : ℂ)]] [(1 : ℂ), -1] [[false], [true]]
            (([[(1 : ℂ)], [(2 : ℂ)]] : List (List ℂ)).length - 1) ∧
      (gmiModeMIperBit [[(1 : ℂ)], [(1 : ℂ)]] [[(1 : ℂ)], [(2 : ℂ)]] [(1 : ℂ), -1] [[false], [true]]
          (([[(1 : ℂ)], [(2 : ℂ)]] : List (List ℂ)).length - 1)).length
        = Nat.log2 ([(1 : ℂ), -1]).length) :=
  ⟨by simp,
    monteCarloGMI_last_mode [[(1 : ℂ)], [(1 : ℂ)]] [[(1 : ℂ)], [(2 : ℂ)]] [(1 : ℂ), -1]
      [[false], [true]] (by simp)⟩

end OpticMetrics

namespace OpticMetrics

lemma indicator_sum_eq_countP (l : List Bool) :
    (l.map fun e => if e then (1 : ℝ) else 0).sum = l.countP id := by
  induction l with
  | nil => simp
  | cons a t ih =>
    rw [List.map_cons, List.sum_cons, ih, List.countP_cons]
    cases a
    · simp
    · push_cast
      simp [add_comm]

lemma berOf_eq (err : List Bool) :
    berOf err = (err.countP id : ℝ) / err.length := by
  unfold berOf npmean
  rw [indicator_sum_eq_countP]
  simp

lemma indicator_pos_sum (L : List (List Bool)) :
    (L.map fun g => if 0 < g.countP id then (1 : ℝ) else 0).sum
      = (L.countP fun g => g.any id : ℕ) := by
  induction L with
  | nil => simp
  | cons g t ih =>
    rw [List.map_cons, List.sum_cons, ih, List.countP_cons]
    by_cases hg : 0 < g.countP id
    · have hany : g.any id = true := by
        rw [List.countP_pos_iff] at hg
        exact List.any_eq_true.mpr hg
      push_cast
      simp [hg, hany, add_comm]
    · have h0 : g.countP id = 0 := by omega
      have hany : g.any id = false := by
        rw [Bool.eq_false_iff]
        intro hcon
        rw [List.any_eq_true] at hcon
        have := List.countP_pos_iff.mpr hcon
        omega
      simp [hg, hany]

lemma serOf_eq (b : ℕ) (err : List Bool) :
    serOf b err
      = ((reshapeRows b err).countP (fun g => g.any id) : ℝ)
          / (reshapeRows b err).length := by
  unfold serOf npmean
  rw [indicator_pos_sum, List.length_map]

lemma reshapeRows_nil {α : Type} (b : ℕ) : reshapeRows b ([] : List α) = [] := by
  rw [reshapeRows]

lemma reshapeRows_cons {α : Type} (b : ℕ) (hb : b ≠ 0) (x : α) (xs : List α) :
    reshapeRows b (x :: xs)
      = (x :: xs).take b :: reshapeRows b ((x :: xs).drop b) := by
  rw [reshapeRows]
  simp only [hb, dite_false]

lemma reshapeRows_flatten_aux {α : Type} (b : ℕ) (hb : b ≠ 0) :
    ∀ (n : ℕ) (l : List α), l.length ≤ n → (reshapeRows b l).flatten = l := by
  intro n
  induction n with
  | zero =>
    intro l hl
    have h0 : l = [] := List.length_eq_zero.mp (Nat.le_zero.mp hl)
    rw [h0, reshapeRows_nil]
    rfl
  | succ m ih =>
    intro l hl
    cases l with
    | nil =>
      rw [reshapeRows_nil]
      rfl
    | cons x xs =>
      rw [reshapeRows_cons b hb, List.flatten_cons]
      rw [ih ((x :: xs).drop b) (by
        rw [List.length_drop]
        simp only [List.length_cons] at hl ⊢
        omega)]
      exact List.take_append_drop b (x :: xs)

lemma reshapeRows_flatten {α : Type} (b : ℕ) (hb : b ≠ 0) (l : List α) :
    (reshapeRows b l).flatten = l :=
  reshapeRows_flatten_aux b hb l.length l le_rfl

lemma reshapeRows_length {α : Type} (b : ℕ) (hb : b ≠ 0) :
    ∀ (N : ℕ) (l : List α), l.length = N * b → (reshapeRows b l).length = N := by
  intro N
  induction N with
  | zero =>
    intro l hl
    have h0 : l = [] := List.length_eq_zero.mp (by simpa using hl)
    rw [h0, reshapeRows_nil]
    rfl
  | succ m ih =>
    intro l hl
    cases l with
    | nil =>
      exfalso
      rw [List.length_nil] at hl
      exact absurd hl.symm (Nat.mul_ne_zero (Nat.succ_ne_zero m) hb)
    | cons x xs =>
      have hdrop : ((x :: xs).drop b).length = m * b := by
        rw [List.length_drop, hl, Nat.succ_mul, Nat.add_sub_cancel]
      rw [reshapeRows_cons b hb, List.length_cons, ih ((x :: xs).drop b) hdrop]

lemma reshapeRows_rows_length {α : Type} (b : ℕ) (hb : b ≠ 0) :
    ∀ (N : ℕ) (l : List α), l.length = N * b →
      ∀ g ∈ reshapeRows b l, g.length = b := by
  intro N
  induction N with
  | zero =>
    intro l hl g hg
    have h0 : l = [] := List.length_eq_zero.mp (by simpa using hl)
    rw [h0, reshapeRows_nil] at hg
    simp at hg
  | succ m ih =>
    intro l hl g hg
    cases l with
    | nil =>
      exfalso
      rw [List.length_nil] at hl
      exact absurd hl.symm (Nat.mul_ne_zero (Nat.succ_ne_zero m) hb)
    | cons x xs =>
      have hble : b ≤ (x :: xs).length := by
        rw [hl, Nat.succ_mul]
        exact Nat.le_add_left b (m * b)
      have hdrop : ((x :: xs).drop b).length = m * b := by
        rw [List.length_drop, hl, Nat.succ_mul, Nat.add_sub_cancel]
      rw [reshapeRows_cons b hb] at hg
      rcases List.mem_cons.mp hg with hg | hg
      · rw [hg, List.length_take]
        exact Nat.min_eq_left hble
      · exact ih ((x :: xs).drop b) hdrop g hg

lemma chunk_count_bounds (b : ℕ) (L : List (List Bool))
    (hb : ∀ g ∈ L, g.length = b) :
    (L.countP fun g => g.any id) ≤ (L.map (List.countP id)).sum ∧
    (L.map (List.countP id)).sum ≤ b * (L.countP fun g => g.any id) := by
  induction L with
  | nil => simp
  | cons g t ih =>
    have hg : g.length = b := hb g (List.mem_cons_self g t)
    obtain ⟨ih1, ih2⟩ := ih (fun g2 h2 => hb g2 (List.mem_cons_of_mem g h2))
    rw [List.map_cons, List.sum_cons, List.countP_cons]
    by_cases hany : g.any id = true
    · have h1 : 1 ≤ g.countP id := by
        rw [List.any_eq_true] at hany
        have := List.countP_pos_iff.mpr hany
        omega
      have h2 : g.countP id ≤ b := hg ▸ List.countP_le_length id
      rw [if_pos hany]
      constructor
      · omega
      · rw [Nat.mul_add, Nat.mul_one]
        calc g.countP id + (t.map (List.countP id)).sum
            ≤ b + b * (t.countP fun g2 => g2.any id) := Nat.add_le_add h2 ih2
          _ = b * (t.countP fun g2 => g2.any id) + b := Nat.add_comm _ _
    · have h0 : g.countP id = 0 := by
        by_contra hne
        have hpos : 0 < g.countP id := Nat.pos_of_ne_zero hne
        rw [List.countP_pos_iff] at hpos
        exact absurd (List.any_eq_true.mpr hpos) hany
      rw [if_neg (by simp [hany]), h0]
      constructor
      · omega
      · simpa using ih2

end OpticMetrics

namespace OpticMetrics

/-- C5: for every input and mode `k`, `fastBERcalc` reports as `BER[k]`
the mean of the elementwise XOR of the hard-decision bit sequences of
the aligned `rx[:,k]` and `tx[:,k]` (both scaled by `sqrt(Es)` before
decision), i.e. the fraction of differing bits, and as `SER[k]` the
fraction of consecutive `b`-bit groups of that XOR sequence containing
at least one set bit. -/
theorem fastBERcalc_mode_formulas (rx tx : List (List ℂ)) (cs : List ℂ)
    (bm : List (List Bool)) (k : ℕ) (hk : k < tx.length)
    (err : List Bool)
    (herr : err = List.zipWith xor
      (hardDecision (scaleC (Real.sqrt (EsOf cs))
        (alignPair (rx.getD k []) (tx.getD k [])).1) cs bm)
      (hardDecision (scaleC (Real.sqrt (EsOf cs))
        (alignPair (rx.getD k []) (tx.getD k [])).2) cs bm)) :
    (fastBERcalc rx tx cs bm).1.getD k 0 = (err.countP id : ℝ) / err.length ∧
    (fastBERcalc rx tx cs bm).2.1.getD k 0
      = ((reshapeRows (Nat.log2 cs.length) err).countP (fun g => g.any id) : ℝ)
          / (reshapeRows (Nat.log2 cs.length) err).length := by
  have hme : modeErr cs bm (alignPair (rx.getD k []) (tx.getD k [])).1
      (alignPair (rx.getD k []) (tx.getD k [])).2 = err := by
    rw [herr]
    rfl
  constructor
  · show ((List.range tx.length).map fun k2 => berOf (modeErr cs bm
        (alignPair (rx.getD k2 []) (tx.getD k2 [])).1
        (alignPair (rx.getD k2 []) (tx.getD k2 [])).2)).getD k 0 = _
    rw [getD_map_range _ tx.length k hk 0, hme, berOf_eq]
  · show ((List.range tx.length).map fun k2 => serOf (Nat.log2 cs.length) (modeErr cs bm
        (alignPair (rx.getD k2 []) (tx.getD k2 [])).1
        (alignPair (rx.getD k2 []) (tx.getD k2 [])).2)).getD k 0 = _
    rw [getD_map_range _ tx.length k hk 0, hme, serOf_eq]

/-- Witness for C5 on a concrete single-mode BPSK input. -/
theorem fastBERcalc_mode_formulas_witness :
    ((0 : ℕ) < ([[(1 : ℂ), -1]] : List (List ℂ)).length ∧
      List.zipWith xor
        (hardDecision (scaleC (Real.sqrt (EsOf [(1 : ℂ), -1]))
          (alignPair (([[(1 : ℂ), -1]] : List (List ℂ)).getD 0 [])
            (([[(1 : ℂ), -1]] : List (List ℂ)).getD 0 [])).1) [(1 : ℂ), -1] [[false], [true]])
        (hardDecision (scaleC (Real.sqrt (EsOf [(1 : ℂ), -1]))
          (alignPair (([[(1 : ℂ), -1]] : List (List ℂ)).getD 0 [])
            (([[(1 : ℂ), -1]] : List (List ℂ)).getD 0 [])).2) [(1 : ℂ), -1] [[false], [true]])
      = List.zipWith xor
        (hardDecision (scaleC (Real.sqrt (EsOf [(1 : ℂ), -1]))
          (alignPair (([[(1 : ℂ), -1]] : List (List ℂ)).getD 0 [])
            (([[(1 : ℂ), -1]] : List (List ℂ)).getD 0 [])).1) [(1 : ℂ), -1] [[false], [true]])
        (hardDecision (scaleC (Real.sqrt (EsOf [(1 : ℂ), -1]))
          (alignPair (([[(1 : ℂ), -1]] : List (List ℂ)).getD 0 [])
            (([[(1 : ℂ), -1]] : List (List ℂ)).getD 0 [])).2) [(1 : ℂ), -1] [[false], [true]])) ∧
    ((fastBERcalc [[(1 : ℂ), -1]] [[(1 : ℂ), -1]] [(1 : ℂ), -1] [[false], [true]]).1.getD 0 0
      = ((List.zipWith xor
          (hardDecision (scaleC (Real.sqrt (EsOf [(1 : ℂ), -1]))
            (alignPair (([[(1 : ℂ), -1]] : List (List ℂ)).getD 0 [])
              (([[(1 : ℂ), -1]] : List (List ℂ)).getD 0 [])).1) [(1 : ℂ), -1] [[false], [true]])
          (hardDecision (scaleC (Real.sqrt (EsOf [(1 : ℂ), -1]))
            (alignPair (([[(1 : ℂ), -1]] : List (List ℂ)).getD 0 [])
              (([[(1 : ℂ), -1]] : List (List ℂ)).getD 0 [])).2) [(1 : ℂ), -1] [[false], [true]])).countP id : ℝ)
          / (List.zipWith xor
          (hardDecision (scaleC (Real.sqrt (EsOf [(1 : ℂ), -1]))
            (alignPair (([[(1 : ℂ), -1]] : List (List ℂ)).getD 0 [])
              (([[(1 : ℂ), -1]] : List (List ℂ)).getD 0 [])).1) [(1 : ℂ), -1] [[false], [true]])
          (hardDecision (scaleC (Real.sqrt (EsOf [(1 : ℂ), -1]))
            (alignPair (([[(1 : ℂ), -1]] : List (List ℂ)).getD 0 [])
              (([[(1 : ℂ), -1]] : List (List ℂ)).getD 0 [])).2) [(1 : ℂ), -1] [[false], [true]])).length ∧
    (fastBERcalc [[(1 : ℂ), -1]] [[(1 : ℂ), -1]] [(1 : ℂ), -1] [[false], [true]]).2.1.getD 0 0
      = ((reshapeRows (Nat.log2 ([(1 : ℂ), -1]).length) (List.zipWith xor
          (hardDecision (scaleC (Real.sqrt (EsOf [(1 : ℂ), -1]))
            (alignPair (([[(1 : ℂ), -1]] : List (List ℂ)).getD 0 [])
              (([[(1 : ℂ), -1]] : List (List ℂ)).getD 0 [])).1) [(1 : ℂ), -1] [[false], [true]])
          (hardDecision (scaleC (Real.sqrt (EsOf [(1 : ℂ), -1]))
            (alignPair (([[(1 : ℂ), -1]] : List (List ℂ)).getD 0 [])
              (([[(1 : ℂ), -1]] : List (List ℂ)).getD 0 [])).2) [(1 : ℂ), -1] [[false], [true]]))).countP
            (fun g => g.any id) : ℝ)
          / (reshapeRows (Nat.log2 ([(1 : ℂ), -1]).length) (List.zipWith xor
          (hardDecision (scaleC (Real.sqrt (EsOf [(1 : ℂ), -1]))
            (alignPair (([[(1 : ℂ), -1]] : List (List ℂ)).getD 0 [])
              (([[(1 : ℂ), -1]] : List (List ℂ)).getD 0 [])).1) [(1 : ℂ), -1] [[false], [true]])
          (hardDecision (scaleC (Real.sqrt (EsOf [(1 : ℂ), -1]))
            (alignPair (([[(1 : ℂ), -1]] : List (List ℂ)).getD 0 [])
              (([[(1 : ℂ), -1]] : List (List ℂ)).getD 0 [])).2) [(1 : ℂ), -1] [[false], [true]]))).length) :=
  ⟨⟨by simp, rfl⟩,
    fastBERcalc_mode_formulas [[(1 : ℂ), -1]] [[(1 : ℂ), -1]] [(1 : ℂ), -1] [[false], [true]]
      0 (by simp) _ rfl⟩

end OpticMetrics

namespace OpticMetrics

lemma hardDecision_length (u cs : List ℂ) (bm : List (List Bool)) (b : ℕ)
    (hcs : cs ≠ []) (hbml : bm.length = cs.length)
    (hrows : ∀ row ∈ bm, row.length = b) :
    (hardDecision u cs bm).length = u.length * b := by
  rw [hardDecision_eq_flatten]
  rw [flatten_length_uniform _ b (by
    intro g hg
    simp only [List.mem_map] at hg
    obtain ⟨r, _, hr⟩ := hg
    have hn : nearestIdx r cs < bm.length := hbml ▸ nearestIdx_lt_length r cs hcs
    rw [← hr]
    apply hrows
    rw [List.getD_eq_getElem _ _ hn]
    exact List.getElem_mem hn)]
  simp

lemma alignPair_fst_length (a c : List ℂ) : (alignPair a c).1.length = a.length := by
  unfold alignPair pnorm
  simp

lemma alignPair_snd_length (a c : List ℂ) : (alignPair a c).2.length = c.length := by
  unfold alignPair pnorm
  simp

lemma scaleC_length (s : ℝ) (x : List ℂ) : (scaleC s x).length = x.length := by
  unfold scaleC
  simp

lemma ber_ser_core (b N : ℕ) (hbpos : 0 < b) (err : List Bool)
    (herr : err.length = N * b) :
    berOf err ≤ serOf b err ∧ serOf b err ≤ b * berOf err := by
  have hb : b ≠ 0 := Nat.pos_iff_ne_zero.mp hbpos
  rw [berOf_eq, serOf_eq]
  have hGlen : (reshapeRows b err).length = N := reshapeRows_length b hb N err herr
  have hrows := reshapeRows_rows_length b hb N err herr
  obtain ⟨hc1, hc2⟩ := chunk_count_bounds b (reshapeRows b err) hrows
  have hTsum : err.countP id = ((reshapeRows b err).map (List.countP id)).sum := by
    conv_lhs => rw [← reshapeRows_flatten b hb err]
    exact List.countP_flatten _ _
  rcases Nat.eq_zero_or_pos N with hN0 | hNpos
  · have herr0 : err = [] := by
      rw [hN0, Nat.zero_mul] at herr
      exact List.length_eq_zero.mp herr
    subst herr0
    rw [reshapeRows_nil]
    simp
  · have hNr : (0 : ℝ) < N := by exact_mod_cast hNpos
    have hbr : (0 : ℝ) < b := by exact_mod_cast hbpos
    have hlenr : (err.length : ℝ) = (N : ℝ) * b := by
      rw [herr]
      push_cast
      ring
    rw [hGlen, hlenr]
    have hBT : ((reshapeRows b err).countP fun g => g.any id) ≤ err.countP id := by
      rw [hTsum]
      exact hc1
    have hTbB : err.countP id ≤ b * ((reshapeRows b err).countP fun g => g.any id) := by
      rw [hTsum]
      exact hc2
    have hBTr : (((reshapeRows b err).countP fun g => g.any id : ℕ) : ℝ)
        ≤ (err.countP id : ℕ) := by exact_mod_cast hBT
    have hTbBr : ((err.countP id : ℕ) : ℝ)
        ≤ (b : ℝ) * ((reshapeRows b err).countP fun g => g.any id : ℕ) := by
      exact_mod_cast hTbB
    constructor
    · rw [div_le_div_iff (by positivity) hNr]
      calc ((err.countP id : ℕ) : ℝ) * N
          ≤ ((b : ℝ) * ((reshapeRows b err).countP fun g => g.any id : ℕ)) * N :=
            mul_le_mul_of_nonneg_right hTbBr (le_of_lt hNr)
        _ = (((reshapeRows b err).countP fun g => g.any id : ℕ) : ℝ) * ((N : ℝ) * b) := by
            ring
    · have hrhs : (b : ℝ) * (((err.countP id : ℕ) : ℝ) / ((N : ℝ) * b))
          = ((err.countP id : ℕ) : ℝ) / N := by
        field_simp
        ring
      rw [hrhs, div_le_div_iff hNr hNr]
      exact mul_le_mul_of_nonneg_right hBTr (le_of_lt hNr)

/-- C10: for every well-formed input and mode `k`, the error rates of
`fastBERcalc` satisfy `BER[k] <= SER[k] <= b * BER[k]`: a `b`-bit symbol
group counted as erroneous contains between 1 and `b` erroneous bits. -/
theorem ber_ser_sandwich (rx tx : List (List ℂ)) (cs : List ℂ)
    (bm : List (List Bool)) (k b : ℕ)
    (hb : b = Nat.log2 cs.length) (hbpos : 0 < b)
    (hbml : bm.length = cs.length)
    (hrows : ∀ row ∈ bm, row.length = b)
    (hk : k < tx.length)
    (hlen : (rx.getD k []).length = (tx.getD k []).length) :
    (fastBERcalc rx tx cs bm).1.getD k 0 ≤ (fastBERcalc rx tx cs bm).2.1.getD k 0 ∧
    (fastBERcalc rx tx cs bm).2.1.getD k 0 ≤ b * (fastBERcalc rx tx cs bm).1.getD k 0 := by
  have hcs : cs ≠ [] := by
    intro hcon
    rw [hcon] at hb
    norm_num [Nat.log2] at hb
    omega
  have hBERproj : (fastBERcalc rx tx cs bm).1.getD k 0
      = berOf (modeErr cs bm (alignPair (rx.getD k []) (tx.getD k [])).1
          (alignPair (rx.getD k []) (tx.getD k [])).2) := by
    show ((List.range tx.length).map fun k2 => berOf (modeErr cs bm
        (alignPair (rx.getD k2 []) (tx.getD k2 [])).1
        (alignPair (rx.getD k2 []) (tx.getD k2 [])).2)).getD k 0 = _
    rw [getD_map_range _ tx.length k hk 0]
  have hSERproj : (fastBERcalc rx tx cs bm).2.1.getD k 0
      = serOf (Nat.log2 cs.length) (modeErr cs bm (alignPair (rx.getD k []) (tx.getD k [])).1
          (alignPair (rx.getD k []) (tx.getD k [])).2) := by
    show ((List.range tx.length).map fun k2 => serOf (Nat.log2 cs.length) (modeErr cs bm
        (alignPair (rx.getD k2 []) (tx.getD k2 [])).1
        (alignPair (rx.getD k2 []) (tx.getD k2 [])).2)).getD k 0 = _
    rw [getD_map_range _ tx.length k hk 0]
  have herrlen : (modeErr cs bm (alignPair (rx.getD k []) (tx.getD k [])).1
      (alignPair (rx.getD k []) (tx.getD k [])).2).length = (tx.getD k []).length * b := by
    unfold modeErr
    rw [List.length_zipWith,
      hardDecision_length _ cs bm b hcs hbml hrows,
      hardDecision_length _ cs bm b hcs hbml hrows,
      scaleC_length, scaleC_length, alignPair_fst_length, alignPair_snd_length,
      hlen, Nat.min_self]
  obtain ⟨h1, h2⟩ := ber_ser_core b ((tx.getD k []).length) hbpos _ herrlen
  rw [hBERproj, hSERproj, ← hb]
  exact ⟨h1, h2⟩

/-- Witness for C10 on a concrete single-mode BPSK input. -/
theorem ber_ser_sandwich_witness :
    ((1 : ℕ) = Nat.log2 ([(1 : ℂ), -1]).length ∧ (0 : ℕ) < 1 ∧
      ([[false], [true]] : List (List Bool)).length = ([(1 : ℂ), -1]).length ∧
      (∀ row ∈ ([[false], [true]] : List (List Bool)), row.length = 1) ∧
      (0 : ℕ) < ([[(1 : ℂ), -1]] : List (List ℂ)).length ∧
      (([[(1 : ℂ), -1]] : List (List ℂ)).getD 0 []).length
        = (([[(1 : ℂ), -1]] : List (List ℂ)).getD 0 []).length) ∧
    ((fastBERcalc [[(1 : ℂ), -1]] [[(1 : ℂ), -1]] [(1 : ℂ), -1] [[false], [true]]).1.getD 0 0
        ≤ (fastBERcalc [[(1 : ℂ), -1]] [[(1 : ℂ), -1]] [(1 : ℂ), -1] [[false], [true]]).2.1.getD 0 0 ∧
      (fastBERcalc [[(1 : ℂ), -1]] [[(1 : ℂ), -1]] [(1 : ℂ), -1] [[false], [true]]).2.1.getD 0 0
        ≤ (1 : ℕ) * (fastBERcalc [[(1 : ℂ), -1]] [[(1 : ℂ), -1]] [(1 : ℂ), -1] [[false], [true]]).1.getD 0 0) :=
  ⟨⟨by norm_num [Nat.log2], by norm_num, rfl, by decide, by simp, rfl⟩,
    ber_ser_sandwich [[(1 : ℂ), -1]] [[(1 : ℂ), -1]] [(1 : ℂ), -1] [[false], [true]] 0 1
      (by norm_num [Nat.log2]) (by norm_num) rfl (by decide) (by simp) rfl⟩

end OpticMetrics

namespace OpticMetrics

lemma reshapeRows_mem_subset_aux {α : Type} (b : ℕ) :
    ∀ (n : ℕ) (l : List α), l.length ≤ n →
      ∀ g ∈ reshapeRows b l, ∀ a ∈ g, a ∈ l := by
  intro n
  induction n with
  | zero =>
    intro l hl g hg
    have h0 : l = [] := List.length_eq_zero.mp (Nat.le_zero.mp hl)
    rw [h0, reshapeRows_nil] at hg
    simp at hg
  | succ m ih =>
    intro l hl g hg a ha
    cases l with
    | nil =>
      rw [reshapeRows_nil] at hg
      simp at hg
    | cons x xs =>
      by_cases hb : b = 0
      · rw [reshapeRows, dif_pos hb] at hg
        simp at hg
      · rw [reshapeRows_cons b hb] at hg
        rcases List.mem_cons.mp hg with hg | hg
        · exact List.take_subset b (x :: xs) (hg ▸ ha)
        · exact List.drop_subset b (x :: xs)
            (ih ((x :: xs).drop b) (by
              rw [List.length_drop]
              simp only [List.length_cons] at hl ⊢
              omega) g hg a ha)

lemma reshapeRows_mem_subset {α : Type} (b : ℕ) (l : List α) (g : List α)
    (hg : g ∈ reshapeRows b l) (a : α) (ha : a ∈ g) : a ∈ l :=
  reshapeRows_mem_subset_aux b l.length l le_rfl g hg a ha

lemma berOf_all_false (n : ℕ) : berOf (List.replicate n false) = 0 := by
  rw [berOf_eq]
  have h0 : (List.replicate n false).countP id = 0 := by
    rw [List.countP_eq_zero]
    intro a ha
    rw [List.eq_of_mem_replicate ha]
    simp
  rw [h0]
  simp

lemma serOf_all_false (b n : ℕ) : serOf b (List.replicate n false) = 0 := by
  rw [serOf_eq]
  have h0 : ((reshapeRows b (List.replicate n false)).countP fun g => g.any id) = 0 := by
    rw [List.countP_eq_zero]
    intro g hg
    simp only [Bool.not_eq_true]
    rw [← Bool.not_eq_true, List.any_eq_true]
    rintro ⟨a, ha, hpa⟩
    have ham : a ∈ List.replicate n false := reshapeRows_mem_subset b _ g hg a ha
    rw [List.eq_of_mem_replicate ham] at hpa
    exact Bool.false_ne_true hpa
  rw [h0]
  simp

lemma zipWith_xor_self (u : List Bool) :
    List.zipWith xor u u = List.replicate u.length false := by
  induction u with
  | nil => rfl
  | cons a t ih => simp [ih, List.replicate_succ]

lemma nearestIdx_self (cs : List ℂ) (hnd : cs.Nodup) (i : ℕ) (hi : i < cs.length) :
    nearestIdx (cs.getD i 0) cs = i := by
  unfold nearestIdx
  set l := cs.map fun c => Complex.abs (cs.getD i 0 - c) with hl
  have hlen : l.length = cs.length := by rw [hl, List.length_map]
  have hne : l ≠ [] := by
    intro hcon
    rw [hcon] at hlen
    rw [← hlen] at hi
    simp at hi
  have hj : argminIdx l < l.length := argminIdx_lt_length l hne
  have hj' : argminIdx l < cs.length := hlen ▸ hj
  have hvi : l.getD i 0 = 0 := by
    rw [hl, getD_map_of_lt _ cs i hi _ 0, sub_self]
    simp
  have hle := argminIdx_le l i (hlen ▸ hi)
  have hnn : 0 ≤ l.getD (argminIdx l) 0 := by
    rw [hl, getD_map_of_lt _ cs _ hj' _ 0]
    exact AbsoluteValue.nonneg _ _
  have hmin0 : l.getD (argminIdx l) 0 = 0 := by
    have h1 : l.getD (argminIdx l) 0 ≤ 0 := le_of_le_of_eq hle hvi
    exact le_antisymm h1 hnn
  by_contra hneq
  have hdiff : cs.getD i 0 - cs.getD (argminIdx l) 0 ≠ 0 := by
    intro h0
    have heq : cs.getD i 0 = cs.getD (argminIdx l) 0 := sub_eq_zero.mp h0
    rw [List.getD_eq_getElem cs 0 hi, List.getD_eq_getElem cs 0 hj'] at heq
    have hfin : (⟨i, hi⟩ : Fin cs.length) = ⟨argminIdx l, hj'⟩ := by
      apply (List.Nodup.get_inj_iff hnd).mp
      simpa using heq
    have : i = argminIdx l := by
      simpa using congrArg Fin.val hfin
    exact hneq this.symm
  have hpos : 0 < l.getD (argminIdx l) 0 := by
    rw [hl, getD_map_of_lt _ cs _ hj' _ 0]
    exact AbsoluteValue.pos _ hdiff
  rw [hmin0] at hpos
  exact lt_irrefl _ hpos

/-- C7: round trip — hard decision applied to the (pairwise distinct)
constellation points themselves reproduces exactly the concatenation of
the bit-map rows; hence with `rx = tx = constellation` the XOR of the
two decided bit sequences is all-zero and both `BER` and `SER` are
exactly 0. -/
theorem hardDecision_roundtrip (constSymb : List ℂ) (bitMap : List (List Bool))
    (M b : ℕ) (hM : constSymb.length = M) (hpow : M = 2 ^ b)
    (hnd : constSymb.Nodup) (hbml : bitMap.length = M)
    (hrows : ∀ row ∈ bitMap, row.length = b) :
    hardDecision constSymb constSymb bitMap = bitMap.flatten ∧
    List.zipWith xor (hardDecision constSymb constSymb bitMap)
        (hardDecision constSymb constSymb bitMap)
      = List.replicate (hardDecision constSymb constSymb bitMap).length false ∧
    berOf (List.zipWith xor (hardDecision constSymb constSymb bitMap)
        (hardDecision constSymb constSymb bitMap)) = 0 ∧
    serOf (Nat.log2 constSymb.length)
      (List.zipWith xor (hardDecision constSymb constSymb bitMap)
        (hardDecision constSymb constSymb bitMap)) = 0 := by
  have hbml' : bitMap.length = constSymb.length := by rw [hbml, hM]
  refine ⟨?_, ?_, ?_, ?_⟩
  · rw [hardDecision_eq_flatten]
    congr 1
    apply List.ext_get (by simp [hbml'])
    intro i h1 h2
    rw [List.get_eq_getElem, List.get_eq_getElem, List.getElem_map]
    have hi : i < constSymb.length := by simpa using h1
    have hgd : constSymb[i] = constSymb.getD i 0 := (List.getD_eq_getElem constSymb 0 hi).symm
    rw [hgd, nearestIdx_self constSymb hnd i hi]
    exact List.getD_eq_getElem bitMap [] (by simpa using h2)
  · exact zipWith_xor_self _
  · rw [zipWith_xor_self]
    exact berOf_all_false _
  · rw [zipWith_xor_self]
    exact serOf_all_false _ _

/-- Witness for C7 with the concrete BPSK constellation. -/
theorem hardDecision_roundtrip_witness :
    (([(1 : ℂ), -1]).length = 2 ∧ (2 : ℕ) = 2 ^ 1 ∧ ([(1 : ℂ), -1]).Nodup ∧
      ([[false], [true]] : List (List Bool)).length = 2 ∧
      (∀ row ∈ ([[false], [true]] : List (List Bool)), row.length = 1)) ∧
    (hardDecision [(1 : ℂ), -1] [(1 : ℂ), -1] [[false], [true]]
        = ([[false], [true]] : List (List Bool)).flatten ∧
      List.zipWith xor (hardDecision [(1 : ℂ), -1] [(1 : ℂ), -1] [[false], [true]])
          (hardDecision [(1 : ℂ), -1] [(1 : ℂ), -1] [[false], [true]])
        = List.replicate (hardDecision [(1 : ℂ), -1] [(1 : ℂ), -1] [[false], [true]]).length false ∧
      berOf (List.zipWith xor (hardDecision [(1 : ℂ), -1] [(1 : ℂ), -1] [[false], [true]])
          (hardDecision [(1 : ℂ), -1] [(1 : ℂ), -1] [[false], [true]])) = 0 ∧
      serOf (Nat.log2 ([(1 : ℂ), -1]).length)
        (List.zipWith xor (hardDecision [(1 : ℂ), -1] [(1 : ℂ), -1] [[false], [true]])
          (hardDecision [(1 : ℂ), -1] [(1 : ℂ), -1] [[false], [true]])) = 0) :=
  ⟨⟨rfl, by norm_num, by norm_num [List.nodup_cons], rfl, by decide⟩,
    hardDecision_roundtrip [(1 : ℂ), -1] [[false], [true]] 2 1 rfl (by norm_num)
      (by norm_num [List.nodup_cons]) rfl (by decide)⟩

end OpticMetrics

namespace OpticMetrics

lemma miEs_scaled (cs : List ℂ) (s : ℝ) (hs : 0 ≤ s) :
    ∀ px : List ℝ, miEs (cs.map fun c => c / ((s : ℝ) : ℂ)) px = miEs cs px / s ^ 2 := by
  unfold miEs
  induction cs with
  | nil =>
    intro px
    simp
  | cons c t ih =>
    intro px
    cases px with
    | nil => simp
    | cons p ps =>
      simp only [List.map_cons, List.zipWith_cons_cons, List.sum_cons]
      rw [ih ps]
      have habs : Complex.abs (c / ((s : ℝ) : ℂ)) ^ 2 = Complex.abs c ^ 2 / s ^ 2 := by
        rw [map_div₀, Complex.abs_ofReal, abs_of_nonneg hs, div_pow]
      rw [habs]
      ring

/-- C8: when `monteCarloMI` is called with an unspecified (empty) pmf it
defaults to the uniform distribution assigning `1/M` to every one of the
`M` constellation points, and the constellation is rescaled by
`1/sqrt(Es)` so that the pmf-weighted mean symbol energy
`sum px[j] * |constSymb[j]|^2` equals exactly 1 after rescaling. -/
theorem monteCarloMI_uniform_pmf (constSymb : List ℂ) (M : ℕ)
    (hM : constSymb.length = M)
    (hpos : 0 < miEs constSymb (defaultPx [] M)) :
    defaultPx [] M = List.replicate M (1 / (M : ℝ)) ∧
    (∀ j, j < M → (defaultPx [] M).getD j 0 = 1 / (M : ℝ)) ∧
    miEs (miConst constSymb (defaultPx [] M)) (defaultPx [] M) = 1 := by
  refine ⟨by simp [defaultPx], ?_, ?_⟩
  · intro j hj
    simp only [defaultPx, List.length_nil, if_pos rfl]
    rw [List.getD_eq_getElem _ _ (by simpa using hj)]
    simp
  · unfold miConst
    rw [miEs_scaled constSymb (Real.sqrt (miEs constSymb (defaultPx [] M)))
      (Real.sqrt_nonneg _) (defaultPx [] M)]
    rw [Real.sq_sqrt (le_of_lt hpos)]
    exact div_self (ne_of_gt hpos)

/-- Witness for C8 with the concrete BPSK constellation and `M = 2`. -/
theorem monteCarloMI_uniform_pmf_witness :
    (([(1 : ℂ), -1]).length = 2 ∧ 0 < miEs [(1 : ℂ), -1] (defaultPx [] 2)) ∧
    (defaultPx [] 2 = List.replicate 2 (1 / (2 : ℝ)) ∧
      (∀ j, j < 2 → (defaultPx [] 2).getD j 0 = 1 / (2 : ℝ)) ∧
      miEs (miConst [(1 : ℂ), -1] (defaultPx [] 2)) (defaultPx [] 2) = 1) := by
  have hpos : 0 < miEs [(1 : ℂ), -1] (defaultPx [] 2) := by
    have hpx : defaultPx [] 2 = [1 / (2 : ℝ), 1 / (2 : ℝ)] := by
      simp [defaultPx, List.replicate]
    rw [hpx]
    unfold miEs
    simp only [List.zipWith_cons_cons, List.zipWith_nil_left, List.sum_cons, List.sum_nil,
      Complex.sq_abs, Complex.normSq_neg, Complex.normSq_one]
    norm_num
  exact ⟨⟨rfl, hpos⟩, monteCarloMI_uniform_pmf [(1 : ℂ), -1] 2 rfl hpos⟩

end OpticMetrics
